import Mathlib

/-!
Verification of the transcription pipeline in `src/app/api/transcribe/route.ts`.

The route splits an audio file into fixed-duration chunks, sequentially sends
each chunk to a transcription API, streams newline-delimited JSON progress
records back to the client, and cleans temporary files in a `finally` block.

The embedding below translates the arithmetic of the chunk planner
(`splitAudioIntoChunks` / `splitChunk`), the dispatch loop of `POST`
(`processAudio`), the temp-file naming, the cleanup block, and the request
validation into Lean.  Durations are modelled as rationals, the JS string
`trim` and `Math.round` as explicit Lean functions, the filesystem as the
list of file names inside the shared temp directory, and the transcription
API together with the cancellation signal as oracles indexed by chunk number.
-/

namespace Transcriber

/-! ### Chunk planner

`splitChunk` models the boundary arithmetic of the source function of the
same name: chunk `index` starts at `index * chunkDuration` and lasts
`min chunkDuration (totalDuration - start)`.  `numberOfChunks` models
`Math.ceil(duration / chunkDuration)` from `splitAudioIntoChunks`. -/

/-- Boundary of one chunk, as computed by `splitChunk` in the source:
start offset `index * chunkDuration`, length
`Math.min(chunkDuration, totalDuration - start)`. -/
def splitChunk (index : ℕ) (chunkDuration totalDuration : ℚ) : ℚ × ℚ :=
  ((index : ℚ) * chunkDuration,
    min chunkDuration (totalDuration - (index : ℚ) * chunkDuration))

/-- The chunk count `Math.ceil(duration / chunkDuration)` from
`splitAudioIntoChunks`. -/
def numberOfChunks (total limit : ℚ) : ℕ :=
  (⌈total / limit⌉).toNat

/-- The full chunk plan: one `splitChunk` boundary per index below the count,
mirroring the `Array.from({length: numberOfChunks}, (_, i) => splitChunk ...)`
construction in the source. -/
def planChunks (total limit : ℚ) : List (ℚ × ℚ) :=
  (List.range (numberOfChunks total limit)).map (fun i => splitChunk i limit total)

/-- The lengths of the planned chunks. -/
def chunkLengths (total limit : ℚ) : List ℚ :=
  (planChunks total limit).map Prod.snd

/-- The hard-coded per-chunk duration of the source: `10 * 60` seconds. -/
def chunkDurationSeconds : ℚ := 10 * 60

/-- `splitAudioIntoChunks` plans with the fixed ten-minute limit. -/
def splitAudioIntoChunks (duration : ℚ) : List (ℚ × ℚ) :=
  planChunks duration chunkDurationSeconds

lemma sum_min_lengths (total limit : ℚ) (ht : 0 < total) :
    ∀ n : ℕ, ((n : ℚ) - 1) * limit < total → 0 < limit →
      ((List.range n).map (fun i : ℕ => min limit (total - (i : ℚ) * limit))).sum
        = min ((n : ℚ) * limit) total := by
  intro n
  induction n with
  | zero =>
    intro _ _
    simp [min_eq_left ht.le]
  | succ n ih =>
    intro h hl
    have hn : (n : ℚ) * limit < total := by
      push_cast at h
      nlinarith
    have h' : ((n : ℚ) - 1) * limit < total := by nlinarith
    rw [List.range_succ, List.map_append, List.sum_append, ih h' hl]
    simp only [List.map_cons, List.map_nil, List.sum_cons, List.sum_nil, add_zero]
    rw [min_eq_left hn.le]
    have key : (n : ℚ) * limit + min limit (total - (n : ℚ) * limit)
        = min ((n : ℚ) * limit + limit) ((n : ℚ) * limit + (total - (n : ℚ) * limit)) :=
      (min_add_add_left _ _ _).symm
    rw [key]
    push_cast
    congr 1 <;> ring

/-- C1: for every positive total duration and positive target limit, the plan
produced by the planner (count `ceil(total/limit)`, chunk `i` starting at
`i*limit` with length `min limit (total - i*limit)`) has lengths summing
exactly to the total, every length positive and at most the limit (hence in
particular every length except possibly the last is at most the limit), and
when the total fits inside the limit the plan is one chunk spanning the whole
input. -/
theorem planner_correct (total limit : ℚ) (htotal : 0 < total) (hlimit : 0 < limit) :
    (chunkLengths total limit).sum = total ∧
    (∀ l ∈ chunkLengths total limit, 0 < l ∧ l ≤ limit) ∧
    (total ≤ limit → planChunks total limit = [(0, total)]) := by
  have hx : 0 < total / limit := div_pos htotal hlimit
  have hceil : 0 < ⌈total / limit⌉ := Int.ceil_pos.mpr hx
  have hnz : ((numberOfChunks total limit : ℕ) : ℤ) = ⌈total / limit⌉ := by
    unfold numberOfChunks
    exact Int.toNat_of_nonneg hceil.le
  have hnq : ((numberOfChunks total limit : ℕ) : ℚ) = ((⌈total / limit⌉ : ℤ) : ℚ) := by
    exact_mod_cast congrArg (fun z : ℤ => (z : ℚ)) hnz
  have hub : total ≤ ((numberOfChunks total limit : ℕ) : ℚ) * limit := by
    have h1 : total / limit ≤ ((⌈total / limit⌉ : ℤ) : ℚ) := Int.le_ceil _
    have h2 : total / limit * limit ≤ ((⌈total / limit⌉ : ℤ) : ℚ) * limit :=
      mul_le_mul_of_nonneg_right h1 hlimit.le
    rw [div_mul_cancel₀ _ hlimit.ne'] at h2
    rw [hnq]
    exact h2
  have hlb : (((numberOfChunks total limit : ℕ) : ℚ) - 1) * limit < total := by
    have h1 : ((⌈total / limit⌉ : ℤ) : ℚ) - 1 < total / limit := by
      have := Int.ceil_lt_add_one (total / limit)
      linarith
    have h2 : (((⌈total / limit⌉ : ℤ) : ℚ) - 1) * limit < total / limit * limit :=
      mul_lt_mul_of_pos_right h1 hlimit
    rw [div_mul_cancel₀ _ hlimit.ne'] at h2
    rw [hnq]
    exact h2
  have hlen : chunkLengths total limit
      = (List.range (numberOfChunks total limit)).map
          (fun i : ℕ => min limit (total - (i : ℚ) * limit)) := by
    simp [chunkLengths, planChunks, splitChunk, List.map_map, Function.comp]
  refine ⟨?_, ?_, ?_⟩
  · rw [hlen, sum_min_lengths total limit htotal _ hlb hlimit, min_eq_right hub]
  · intro l hl
    rw [hlen] at hl
    obtain ⟨i, hi, rfl⟩ := List.mem_map.mp hl
    have hir : i < numberOfChunks total limit := List.mem_range.mp hi
    have hi1 : (i : ℚ) ≤ ((numberOfChunks total limit : ℕ) : ℚ) - 1 := by
      have : (i : ℚ) + 1 ≤ ((numberOfChunks total limit : ℕ) : ℚ) := by
        exact_mod_cast Nat.succ_le_of_lt hir
      linarith
    have hpos : 0 < total - (i : ℚ) * limit := by
      have : (i : ℚ) * limit ≤ (((numberOfChunks total limit : ℕ) : ℚ) - 1) * limit :=
        mul_le_mul_of_nonneg_right hi1 hlimit.le
      linarith
    exact ⟨lt_min hlimit hpos, min_le_left _ _⟩
  · intro hts
    have hone : ⌈total / limit⌉ = 1 := by
      refine le_antisymm ?_ hceil
      rw [Int.ceil_le]
      push_cast
      exact (div_le_one hlimit).mpr hts
    have hn1 : numberOfChunks total limit = 1 := by
      unfold numberOfChunks
      rw [hone]
      rfl
    rw [planChunks, hn1]
    have hr1 : List.range 1 = [0] := rfl
    rw [hr1]
    simp [splitChunk, min_eq_right hts, Nat.cast_zero, zero_mul, sub_zero]

/-- Witness for C1 at the concrete input `total = 1500`, `limit = 600`
(a 25-minute file with the source's ten-minute chunks). -/
theorem planner_correct_witness :
    (0 : ℚ) < 1500 ∧ (0 : ℚ) < 600 ∧
      ((chunkLengths 1500 600).sum = 1500 ∧
        (∀ l ∈ chunkLengths 1500 600, 0 < l ∧ l ≤ 600) ∧
        ((1500 : ℚ) ≤ 600 → planChunks 1500 600 = [(0, 1500)])) :=
  ⟨by norm_num, by norm_num, planner_correct 1500 600 (by norm_num) (by norm_num)⟩

/-! ### Stream records and the dispatch loop

The loop of `processAudio` in `POST` is embedded as `processLoop`: the first
argument counts remaining iterations (`total - i`), `i` is the loop index and
`acc` the mutable `fullTranscription` accumulator.  `api` gives the outcome of
`openai.audio.transcriptions.create` for each chunk index and `aborted` the
value of `req.signal.aborted` observed at the top of the iteration.  Each
record written to the response stream is captured as a `StreamWrite`: the
record itself plus whether the serialized JSON was followed by a newline
(progress records are written as `JSON.stringify(...) + newline`, the
terminal error record as bare `JSON.stringify(...)`). -/

/-- Characters removed by JS `String.prototype.trim` that can occur here. -/
def isJsWs (c : Char) : Bool :=
  c == ' ' || c == '\t' || c == '\n' || c == '\r'

/-- Remove trailing whitespace. -/
def trimEndChars (l : List Char) : List Char :=
  (l.reverse.dropWhile isJsWs).reverse

/-- JS `String.prototype.trim`: strip leading and trailing whitespace. -/
def jsTrim (s : String) : String :=
  ⟨(trimEndChars s.data).dropWhile isJsWs⟩

/-- JS `Math.round` on the nonnegative values produced by the progress
computation: round half up. -/
def jsRound (q : ℚ) : ℤ :=
  (q + 1 / 2).floor

/-- One JSON record of the response stream: either a progress record with the
fields `progress`, `transcription`, `chunkTranscription` and
`chunkProgress.current` / `chunkProgress.total`, or an error record. -/
inductive StreamEvent where
  | progress (progress : ℤ) (transcription : String) (chunkTranscription : String)
      (current : ℕ) (total : ℕ) : StreamEvent
  | error (msg : String) : StreamEvent
deriving DecidableEq

/-- One write to the response stream: the record plus whether the serialized
JSON was terminated by a newline character. -/
structure StreamWrite where
  event : StreamEvent
  newline : Bool
deriving DecidableEq

/-- Whether a record is a progress record. -/
def isProgressEvent : StreamEvent → Bool
  | .progress _ _ _ _ _ => true
  | .error _ => false

/-- The `chunkProgress.current` field of a record, when present. -/
def eventCurrent : StreamEvent → Option ℕ
  | .progress _ _ _ c _ => some c
  | .error _ => none

/-- The text returned by the transcription API for chunk `j`, when the call
succeeds (used to phrase hypotheses and expected outputs). -/
def okText (api : ℕ → Except String String) (j : ℕ) : String :=
  match api j with
  | .ok t => t
  | .error _ => ""

/-- The per-chunk loop of `processAudio`: check `req.signal.aborted`, call the
transcription API, append `transcription.text + space` to the accumulator,
write one newline-terminated progress record; on failure or cancellation the
thrown error reaches the outer catch, which writes one error record without a
trailing newline and stops.  Returns the stream writes and the list of chunk
indices actually dispatched to the API. -/
def processLoop (api : ℕ → Except String String) (aborted : ℕ → Bool) (total : ℕ) :
    ℕ → ℕ → String → List StreamWrite × List ℕ
  | 0, _, _ => ([], [])
  | rem + 1, i, acc =>
    if aborted i then
      ([⟨StreamEvent.error "Transcription cancelled", false⟩], [])
    else
      match api i with
      | .ok t =>
        let acc2 := acc ++ t ++ " "
        let w : StreamWrite :=
          ⟨StreamEvent.progress (jsRound (((i : ℚ) + 1) / (total : ℚ) * 100))
            (jsTrim acc2) (jsTrim t) (i + 1) total, true⟩
        let rest := processLoop api aborted total rem (i + 1) acc2
        (w :: rest.1, i :: rest.2)
      | .error m =>
        ([⟨StreamEvent.error ("Error processing chunk " ++ toString (i + 1) ++ ": " ++ m),
            false⟩],
          [i])

/-- The whole dispatch phase of `processAudio` for a plan of `total` chunks:
run the loop from index `0` with an empty accumulator. -/
def dispatchChunks (api : ℕ → Except String String) (aborted : ℕ → Bool) (total : ℕ) :
    List StreamWrite × List ℕ :=
  processLoop api aborted total total 0 ""

/-- The progress record written after chunk `i` succeeds with accumulator
`acc`, as built in the source. -/
def progWrite (api : ℕ → Except String String) (total i : ℕ) (acc : String) : StreamWrite :=
  ⟨StreamEvent.progress (jsRound (((i : ℚ) + 1) / (total : ℚ) * 100))
    (jsTrim (acc ++ okText api i ++ " ")) (jsTrim (okText api i)) (i + 1) total, true⟩

/-- The progress records produced by `n` consecutive successful chunks
starting at index `i` with accumulator `acc`. -/
def cleanWrites (api : ℕ → Except String String) (total : ℕ) :
    ℕ → ℕ → String → List StreamWrite
  | 0, _, _ => []
  | n + 1, i, acc =>
    progWrite api total i acc ::
      cleanWrites api total n (i + 1) (acc ++ okText api i ++ " ")

/-- The accumulator after `n` consecutive successful chunks starting at
index `i` from accumulator `acc`. -/
def accFrom (api : ℕ → Except String String) : ℕ → ℕ → String → String
  | 0, _, acc => acc
  | n + 1, i, acc => accFrom api n (i + 1) (acc ++ okText api i ++ " ")

/-- Chunk texts joined by a single separating space (the phrasing used by the
specification for the cumulative transcription). -/
def joinSpace : List String → String
  | [] => ""
  | [t] => t
  | t :: ts => t ++ " " ++ joinSpace ts

/-- Concatenation of each text followed by one space, which is how the
source's `fullTranscription` accumulator grows. -/
def spaceCat (l : List String) : String :=
  l.foldr (fun t r => t ++ " " ++ r) ""

/-- The HTTP status of the response returned by `POST`: the stream is always
returned with the default 200 status, whatever happens inside the pipeline. -/
def responseStatus : ℕ := 200

lemma trimEndChars_append_space (l : List Char) :
    trimEndChars (l ++ [' ']) = trimEndChars l := by
  unfold trimEndChars
  rw [List.reverse_append]
  rw [show ([' '] : List Char).reverse ++ l.reverse = ' ' :: l.reverse from rfl]
  rw [List.dropWhile_cons_of_pos (by decide)]

lemma jsTrim_append_space (s : String) : jsTrim (s ++ " ") = jsTrim s := by
  unfold jsTrim
  rw [String.data_append]
  rw [show (" " : String).data = [' '] from rfl]
  rw [trimEndChars_append_space]

lemma spaceCat_cons (t : String) (l : List String) :
    spaceCat (t :: l) = t ++ " " ++ spaceCat l := rfl

lemma spaceCat_eq_joinSpace (l : List String) (h : l ≠ []) :
    spaceCat l = joinSpace l ++ " " := by
  induction l with
  | nil => cases h rfl
  | cons t ts ih =>
    cases ts with
    | nil => simp [spaceCat, joinSpace, String.append_empty]
    | cons u us =>
      rw [spaceCat_cons, ih (by simp)]
      show t ++ " " ++ (joinSpace (u :: us) ++ " ") = joinSpace (t :: u :: us) ++ " "
      rw [show joinSpace (t :: u :: us) = t ++ " " ++ joinSpace (u :: us) from rfl]
      simp [String.append_assoc]

lemma accFrom_succ_right (api : ℕ → Except String String) :
    ∀ n i acc, accFrom api (n + 1) i acc
      = accFrom api n i acc ++ okText api (i + n) ++ " " := by
  intro n
  induction n with
  | zero =>
    intro i acc
    simp [accFrom]
  | succ n ih =>
    intro i acc
    rw [show accFrom api (n + 1 + 1) i acc
        = accFrom api (n + 1) (i + 1) (acc ++ okText api i ++ " ") from rfl]
    rw [ih]
    rw [show accFrom api (n + 1) i acc
        = accFrom api n (i + 1) (acc ++ okText api i ++ " ") from rfl]
    rw [show i + 1 + n = i + (n + 1) from by omega]

lemma accFrom_eq_spaceCat (api : ℕ → Except String String) :
    ∀ n i acc, accFrom api n i acc
      = acc ++ spaceCat ((List.range' i n).map (okText api)) := by
  intro n
  induction n with
  | zero =>
    intro i acc
    simp [accFrom, spaceCat, String.append_empty, List.range']
  | succ n ih =>
    intro i acc
    rw [show accFrom api (n + 1) i acc
        = accFrom api n (i + 1) (acc ++ okText api i ++ " ") from rfl]
    rw [ih]
    rw [List.range'_succ i n 1, List.map_cons, spaceCat_cons]
    simp [String.append_assoc]

lemma processLoop_zero (api : ℕ → Except String String) (aborted : ℕ → Bool)
    (total i : ℕ) (acc : String) :
    processLoop api aborted total 0 i acc = ([], []) := rfl

lemma processLoop_abort (api : ℕ → Except String String) (aborted : ℕ → Bool)
    (total rem i : ℕ) (acc : String) (hab : aborted i = true) :
    processLoop api aborted total (rem + 1) i acc
      = ([⟨StreamEvent.error "Transcription cancelled", false⟩], []) := by
  rw [processLoop, hab]
  simp

lemma processLoop_fail (api : ℕ → Except String String) (aborted : ℕ → Bool)
    (total rem i : ℕ) (acc : String) (m : String)
    (hab : aborted i = false) (hm : api i = .error m) :
    processLoop api aborted total (rem + 1) i acc
      = ([⟨StreamEvent.error ("Error processing chunk " ++ toString (i + 1) ++ ": " ++ m),
            false⟩],
          [i]) := by
  rw [processLoop, hab, hm]
  simp

lemma processLoop_ok (api : ℕ → Except String String) (aborted : ℕ → Bool)
    (total rem i : ℕ) (acc : String)
    (hab : aborted i = false) (hm : api i = .ok (okText api i)) :
    processLoop api aborted total (rem + 1) i acc
      = (progWrite api total i acc
            :: (processLoop api aborted total rem (i + 1) (acc ++ okText api i ++ " ")).1,
          i :: (processLoop api aborted total rem (i + 1) (acc ++ okText api i ++ " ")).2) := by
  rw [processLoop, hab, hm]
  simp [progWrite]

lemma processLoop_clean (api : ℕ → Except String String) (aborted : ℕ → Bool) (total : ℕ) :
    ∀ n rem i acc, n ≤ rem →
      (∀ j, i ≤ j → j < i + n → aborted j = false) →
      (∀ j, i ≤ j → j < i + n → api j = .ok (okText api j)) →
      processLoop api aborted total rem i acc =
        (cleanWrites api total n i acc
            ++ (processLoop api aborted total (rem - n) (i + n) (accFrom api n i acc)).1,
          List.range' i n
            ++ (processLoop api aborted total (rem - n) (i + n) (accFrom api n i acc)).2) := by
  intro n
  induction n with
  | zero =>
    intro rem i acc _ _ _
    simp [cleanWrites, accFrom, List.range']
  | succ n ih =>
    intro rem i acc hle hab hok
    obtain ⟨rem', rfl⟩ : ∃ rem', rem = rem' + 1 := ⟨rem - 1, by omega⟩
    have habi : aborted i = false := hab i le_rfl (by omega)
    have hoki : api i = .ok (okText api i) := hok i le_rfl (by omega)
    rw [processLoop_ok api aborted total rem' i acc habi hoki]
    rw [ih rem' (i + 1) (acc ++ okText api i ++ " ") (by omega)
      (fun j h1 h2 => hab j (by omega) (by omega))
      (fun j h1 h2 => hok j (by omega) (by omega))]
    rw [show cleanWrites api total (n + 1) i acc
        = progWrite api total i acc
            :: cleanWrites api total n (i + 1) (acc ++ okText api i ++ " ") from rfl]
    rw [show accFrom api (n + 1) i acc
        = accFrom api n (i + 1) (acc ++ okText api i ++ " ") from rfl]
    rw [show rem' + 1 - (n + 1) = rem' - n from by omega]
    rw [show i + (n + 1) = i + 1 + n from by omega]
    rw [List.range'_succ i n 1]
    simp [List.cons_append]

lemma cleanWrites_length (api : ℕ → Except String String) (total : ℕ) :
    ∀ n i acc, (cleanWrites api total n i acc).length = n := by
  intro n
  induction n with
  | zero => intro i acc; rfl
  | succ n ih =>
    intro i acc
    rw [show cleanWrites api total (n + 1) i acc
        = progWrite api total i acc
            :: cleanWrites api total n (i + 1) (acc ++ okText api i ++ " ") from rfl]
    rw [List.length_cons, ih]

lemma cleanWrites_currents (api : ℕ → Except String String) (total : ℕ) :
    ∀ n i acc, (cleanWrites api total n i acc).map (fun w => eventCurrent w.event)
      = (List.range' i n).map (fun j => some (j + 1)) := by
  intro n
  induction n with
  | zero => intro i acc; rfl
  | succ n ih =>
    intro i acc
    rw [show cleanWrites api total (n + 1) i acc
        = progWrite api total i acc
            :: cleanWrites api total n (i + 1) (acc ++ okText api i ++ " ") from rfl]
    rw [List.range'_succ i n 1, List.map_cons, List.map_cons, ih]
    rfl

lemma cleanWrites_mem (api : ℕ → Except String String) (total : ℕ) :
    ∀ n i acc w, w ∈ cleanWrites api total n i acc →
      isProgressEvent w.event = true ∧ w.newline = true := by
  intro n
  induction n with
  | zero =>
    intro i acc w hw
    cases hw
  | succ n ih =>
    intro i acc w hw
    rw [show cleanWrites api total (n + 1) i acc
        = progWrite api total i acc
            :: cleanWrites api total n (i + 1) (acc ++ okText api i ++ " ") from rfl] at hw
    rcases List.mem_cons.mp hw with h | h
    · subst h
      exact ⟨rfl, rfl⟩
    · exact ih _ _ _ h

lemma cleanWrites_getElem_last (api : ℕ → Except String String) (total : ℕ) :
    ∀ n i acc, (cleanWrites api total (n + 1) i acc)[n]?
      = some (progWrite api total (i + n) (accFrom api n i acc)) := by
  intro n
  induction n with
  | zero => intro i acc; rfl
  | succ n ih =>
    intro i acc
    rw [show cleanWrites api total (n + 1 + 1) i acc
        = progWrite api total i acc
            :: cleanWrites api total (n + 1) (i + 1) (acc ++ okText api i ++ " ") from rfl]
    rw [List.getElem?_cons_succ]
    rw [ih]
    rw [show accFrom api (n + 1) i acc
        = accFrom api n (i + 1) (acc ++ okText api i ++ " ") from rfl]
    rw [show i + 1 + n = i + (n + 1) from by omega]

deriving instance DecidableEq for Except

/-! ### Demo oracles used in witnesses and counterexamples -/

/-- Demo transcription texts. -/
def demoTexts (j : ℕ) : String := "t" ++ toString j

/-- A transcription API that succeeds on every chunk. -/
def demoApiOk : ℕ → Except String String := fun j => .ok (demoTexts j)

/-- A transcription API that fails on chunk index 2 (the third chunk). -/
def demoApiFailAt2 : ℕ → Except String String :=
  fun j => if j = 2 then .error "rate limit" else .ok (demoTexts j)

/-- A transcription API that fails immediately. -/
def demoApiFail0 : ℕ → Except String String := fun _ => .error "bad audio"

/-- A request whose cancellation signal never fires. -/
def neverAborted : ℕ → Bool := fun _ => false

/-- A request whose cancellation signal is observed from iteration 2 on. -/
def abortedFrom2 : ℕ → Bool := fun j => 2 ≤ j

/-! ### Failure, cancellation, progress and framing of the stream -/

/-- C2: if the transcription call for 0-based chunk `k` fails (after `k`
clean successes and no cancellation), the stream is exactly the `k` progress
records for chunks `1..k` followed by one terminal error record whose message
references 1-based chunk index `k + 1`, and the API is called exactly for
chunks `0..k` — never for any later chunk. -/
theorem chunkFailure_aborts_stream (api : ℕ → Except String String) (aborted : ℕ → Bool)
    (total k : ℕ) (m : String)
    (hk : k < total)
    (hab : ∀ j, j ≤ k → aborted j = false)
    (hok : ∀ j, j < k → api j = .ok (okText api j))
    (hfail : api k = .error m) :
    (dispatchChunks api aborted total).1
        = cleanWrites api total k 0 ""
            ++ [⟨StreamEvent.error ("Error processing chunk " ++ toString (k + 1) ++ ": " ++ m),
                  false⟩] ∧
    (cleanWrites api total k 0 "").length = k ∧
    ((cleanWrites api total k 0 "").map (fun w => eventCurrent w.event)
        = (List.range k).map (fun j => some (j + 1))) ∧
    (∀ w ∈ cleanWrites api total k 0 "", isProgressEvent w.event = true) ∧
    (dispatchChunks api aborted total).2 = List.range (k + 1) := by
  have hclean := processLoop_clean api aborted total k total 0 "" hk.le
    (fun j _ h2 => hab j (by omega))
    (fun j _ h2 => hok j (by omega))
  simp only [Nat.zero_add] at hclean
  obtain ⟨d, hd⟩ : ∃ d, total - k = d + 1 := ⟨total - k - 1, by omega⟩
  rw [hd] at hclean
  rw [processLoop_fail api aborted total d k (accFrom api k 0 "") m (hab k le_rfl) hfail]
    at hclean
  refine ⟨?_, cleanWrites_length api total k 0 "", ?_, ?_, ?_⟩
  · rw [show dispatchChunks api aborted total = processLoop api aborted total total 0 ""
        from rfl, hclean]
  · rw [cleanWrites_currents, List.range_eq_range']
  · exact fun w hw => (cleanWrites_mem api total k 0 "" w hw).1
  · rw [show dispatchChunks api aborted total = processLoop api aborted total total 0 ""
        from rfl, hclean]
    show List.range' 0 k ++ [k] = List.range (k + 1)
    rw [List.range_eq_range']
    have h := List.range'_1_concat 0 k
    simp only [Nat.zero_add] at h
    exact h.symm

/-- Witness for C2: a 4-chunk plan whose third chunk (0-based index 2) fails;
the stream is the 2 progress records followed by the terminal error naming
chunk 3, and chunk 4 is never dispatched. -/
theorem chunkFailure_aborts_stream_witness :
    (dispatchChunks demoApiFailAt2 neverAborted 4).1
        = cleanWrites demoApiFailAt2 4 2 0 ""
            ++ [⟨StreamEvent.error
                  ("Error processing chunk " ++ toString (2 + 1) ++ ": " ++ "rate limit"),
                  false⟩] ∧
    (dispatchChunks demoApiFailAt2 neverAborted 4).2 = List.range (2 + 1) := by
  obtain ⟨h1, _, _, _, h5⟩ := chunkFailure_aborts_stream demoApiFailAt2 neverAborted 4 2
    "rate limit" (by decide) (by decide) (by decide) (by decide)
  exact ⟨h1, h5⟩

/-- C5: if cancellation is signalled once the first `k` chunks have completed
(and the signal is observed at the top of iteration `k`), the stream is the
`k` progress records followed by a terminal cancellation record, no chunk
beyond the first `k` is ever dispatched to the API, and the last stream
record is the cancellation record — not a success. -/
theorem cancellation_stops_dispatch (api : ℕ → Except String String) (aborted : ℕ → Bool)
    (total k : ℕ)
    (hk : k < total)
    (hab : ∀ j, j < k → aborted j = false)
    (hsig : aborted k = true)
    (hok : ∀ j, j < k → api j = .ok (okText api j)) :
    (dispatchChunks api aborted total).1
        = cleanWrites api total k 0 ""
            ++ [⟨StreamEvent.error "Transcription cancelled", false⟩] ∧
    (∀ w ∈ cleanWrites api total k 0 "", isProgressEvent w.event = true) ∧
    (dispatchChunks api aborted total).2 = List.range k ∧
    (dispatchChunks api aborted total).1.getLast?
        = some ⟨StreamEvent.error "Transcription cancelled", false⟩ := by
  have hclean := processLoop_clean api aborted total k total 0 "" hk.le
    (fun j _ h2 => hab j (by omega))
    (fun j _ h2 => hok j (by omega))
  simp only [Nat.zero_add] at hclean
  obtain ⟨d, hd⟩ : ∃ d, total - k = d + 1 := ⟨total - k - 1, by omega⟩
  rw [hd] at hclean
  rw [processLoop_abort api aborted total d k (accFrom api k 0 "") hsig] at hclean
  have hw1 : (dispatchChunks api aborted total).1
      = cleanWrites api total k 0 ""
          ++ [⟨StreamEvent.error "Transcription cancelled", false⟩] := by
    rw [show dispatchChunks api aborted total = processLoop api aborted total total 0 ""
        from rfl, hclean]
  refine ⟨hw1, ?_, ?_, ?_⟩
  · exact fun w hw => (cleanWrites_mem api total k 0 "" w hw).1
  · rw [show dispatchChunks api aborted total = processLoop api aborted total total 0 ""
        from rfl, hclean]
    show List.range' 0 k ++ [] = List.range k
    rw [List.append_nil, List.range_eq_range']
  · rw [hw1, List.getLast?_concat]

/-- Witness for C5: a 5-chunk plan cancelled after chunk 2 completes; chunks
3 to 5 are never dispatched and the stream ends with the cancellation
record. -/
theorem cancellation_stops_dispatch_witness :
    (dispatchChunks demoApiOk abortedFrom2 5).1
        = cleanWrites demoApiOk 5 2 0 ""
            ++ [⟨StreamEvent.error "Transcription cancelled", false⟩] ∧
    (dispatchChunks demoApiOk abortedFrom2 5).2 = List.range 2 ∧
    (dispatchChunks demoApiOk abortedFrom2 5).1.getLast?
        = some ⟨StreamEvent.error "Transcription cancelled", false⟩ := by
  obtain ⟨h1, _, h3, h4⟩ := cancellation_stops_dispatch demoApiOk abortedFrom2 5 2
    (by decide) (by decide) (by decide) (by decide)
  exact ⟨h1, h3, h4⟩

/-- C3: after the successful completion of 0-based chunk `i` out of `total`,
the `i`-th stream record is a newline-terminated progress record with
percent `round(100*(i+1)/total)`, cumulative transcription equal to the texts
of chunks `0..i` joined by a single space and trimmed, chunk transcription
equal to chunk `i`'s text trimmed, `chunkProgress.current = i + 1` and
`chunkProgress.total = total`. -/
theorem progress_record_fields (api : ℕ → Except String String) (aborted : ℕ → Bool)
    (total i : ℕ) (texts : ℕ → String)
    (hi : i < total)
    (hab : ∀ j, j ≤ i → aborted j = false)
    (hok : ∀ j, j ≤ i → api j = .ok (texts j)) :
    (dispatchChunks api aborted total).1[i]?
      = some ⟨StreamEvent.progress (jsRound (100 * ((i : ℚ) + 1) / (total : ℚ)))
          (jsTrim (joinSpace ((List.range (i + 1)).map texts)))
          (jsTrim (texts i)) (i + 1) total, true⟩ := by
  have htexts : ∀ j, j ≤ i → okText api j = texts j := by
    intro j hj
    simp [okText, hok j hj]
  have hpct : jsRound (((i : ℚ) + 1) / (total : ℚ) * 100)
      = jsRound (100 * ((i : ℚ) + 1) / (total : ℚ)) := by
    congr 1
    ring
  have htrans : jsTrim (accFrom api i 0 "" ++ okText api i ++ " ")
      = jsTrim (joinSpace ((List.range (i + 1)).map texts)) := by
    have h1 : accFrom api i 0 "" ++ okText api i ++ " " = accFrom api (i + 1) 0 "" := by
      rw [accFrom_succ_right api i 0 "", show (0 : ℕ) + i = i from by omega]
    rw [h1, accFrom_eq_spaceCat api (i + 1) 0 "", String.empty_append]
    have h2 : (List.range' 0 (i + 1)).map (okText api) = (List.range (i + 1)).map texts := by
      rw [← List.range_eq_range']
      exact List.map_congr_left (fun j hj => htexts j (by
        have := List.mem_range.mp hj
        omega))
    rw [h2]
    have h3 : (List.range (i + 1)).map texts ≠ [] := by
      intro hcon
      have := congrArg List.length hcon
      simp at this
    rw [spaceCat_eq_joinSpace _ h3, jsTrim_append_space]
  have hclean := processLoop_clean api aborted total (i + 1) total 0 "" (by omega)
    (fun j _ h2 => hab j (by omega))
    (fun j _ h2 => by rw [hok j (by omega), htexts j (by omega)])
  have hw1 : (dispatchChunks api aborted total).1
      = cleanWrites api total (i + 1) 0 ""
          ++ (processLoop api aborted total (total - (i + 1)) (0 + (i + 1))
                (accFrom api (i + 1) 0 "")).1 := by
    rw [show dispatchChunks api aborted total = processLoop api aborted total total 0 ""
        from rfl, hclean]
  have hlen : i < (cleanWrites api total (i + 1) 0 "").length := by
    rw [cleanWrites_length]
    omega
  rw [hw1, List.getElem?_append_left hlen, cleanWrites_getElem_last api total i 0 ""]
  rw [show (0 : ℕ) + i = i from by omega]
  simp only [progWrite]
  rw [hpct, htrans, htexts i le_rfl]

/-- Witness for C3: in a 3-chunk all-success run, the second stream record
(index 1) carries the documented fields. -/
theorem progress_record_fields_witness :
    (dispatchChunks demoApiOk neverAborted 3).1[1]?
      = some ⟨StreamEvent.progress (jsRound (100 * ((1 : ℚ) + 1) / (3 : ℚ)))
          (jsTrim (joinSpace ((List.range (1 + 1)).map demoTexts)))
          (jsTrim (demoTexts 1)) (1 + 1) 3, true⟩ :=
  progress_record_fields demoApiOk neverAborted 3 1 demoTexts (by decide) (by decide)
    (by decide)

lemma processLoop_newline (api : ℕ → Except String String) (aborted : ℕ → Bool)
    (total : ℕ) :
    ∀ rem i acc w, w ∈ (processLoop api aborted total rem i acc).1 →
      w.newline = isProgressEvent w.event := by
  intro rem
  induction rem with
  | zero =>
    intro i acc w hw
    cases hw
  | succ rem ih =>
    intro i acc w hw
    by_cases hab : aborted i = true
    · rw [processLoop_abort api aborted total rem i acc hab] at hw
      obtain rfl := List.mem_singleton.mp hw
      rfl
    · have hab' : aborted i = false := by simpa using hab
      rcases hapi : api i with m | t
      · rw [processLoop_fail api aborted total rem i acc m hab' hapi] at hw
        obtain rfl := List.mem_singleton.mp hw
        rfl
      · have hoki : api i = .ok (okText api i) := by
          rw [hapi]
          simp [okText, hapi]
        rw [processLoop_ok api aborted total rem i acc hab' hoki] at hw
        rcases List.mem_cons.mp hw with rfl | h
        · rfl
        · exact ih _ _ _ h

/-- C7 (amended): every progress record written to the stream is
newline-terminated, while the terminal error record is written without a
trailing newline (`JSON.stringify` alone); every record has one of the two
documented shapes by construction, and pipeline-internal failures never
change the HTTP status, which is always 200. -/
theorem stream_records_inband (api : ℕ → Except String String) (aborted : ℕ → Bool)
    (total : ℕ) :
    (((dispatchChunks api aborted total).1).all
        fun w => w.newline == isProgressEvent w.event) = true ∧
    responseStatus = 200 := by
  refine ⟨?_, rfl⟩
  rw [List.all_eq_true]
  intro w hw
  have h := processLoop_newline api aborted total total 0 "" w hw
  simp [h]

/-- C7 counterexample: in a 1-chunk run whose transcription call fails, the
single record written (the terminal error record) is not newline-terminated,
refuting the claim that every record is a newline-terminated JSON object. -/
theorem error_record_misses_newline :
    (((dispatchChunks demoApiFail0 neverAborted 1).1).all fun w => w.newline) = false ∧
    ((dispatchChunks demoApiFail0 neverAborted 1).1).length = 1 := by
  decide

/-! ### Temp-file naming and the cleanup block

The filesystem is modelled as the list of file names inside the shared
`transcriber-temp` directory.  `unlinkE` models `fsPromises.unlink` (which
rejects when the file is absent) and `unlinkCaught` its use under
`.catch(console.error)` — the rejection is logged, never raised.  `cleanup`
models the `finally` block of `processAudio`: unlink the saved source file,
read the directory once, and unlink every listed name that starts with
`chunk_`. -/

/-- Whether `p` is a prefix of `s` (JS `String.prototype.startsWith`). -/
def strStartsWith (p s : String) : Bool :=
  s.data.take p.data.length == p.data

/-- The name of the saved upload: `input-<Date.now()>.<ext>`. -/
def inputFileName (now : ℕ) (ext : String) : String :=
  "input-" ++ toString now ++ "." ++ ext

/-- The name of a chunk file created by `splitChunk`:
`chunk_<index><extname>`, with no request-scoped component. -/
def chunkFileName (index : ℕ) (ext : String) : String :=
  "chunk_" ++ toString index ++ ext

/-- All names a request creates in the shared temp directory: its timestamped
input file and one chunk file per planned chunk. -/
def requestFiles (now : ℕ) (ext : String) (n : ℕ) : List String :=
  inputFileName now ext :: (List.range n).map (fun i => chunkFileName i ("." ++ ext))

/-- `fsPromises.unlink`: removes the file, rejects when it is absent. -/
def unlinkE (name : String) (fs : List String) : Except String (List String) :=
  if name ∈ fs then .ok (fs.erase name) else .error "ENOENT"

/-- `unlink(...).catch(console.error)`: a deletion failure is logged but
never raised, leaving the filesystem unchanged. -/
def unlinkCaught (name : String) (fs : List String) : List String :=
  match unlinkE name fs with
  | .ok fs2 => fs2
  | .error _ => fs

/-- The `finally` block: best-effort unlink of the source temp file, then one
`readdir` of the temp directory and a best-effort unlink of every listed name
starting with `chunk_`. -/
def cleanup (audioFilePath : Option String) (fs : List String) : List String :=
  let fs1 := match audioFilePath with
    | some p => unlinkCaught p fs
    | none => fs
  fs1.foldl (fun acc name => if strStartsWith "chunk_" name then unlinkCaught name acc else acc)
    fs1

/-- The whole request body of `POST` after chunking: the dispatch loop
followed — on every exit path alike — by exactly one run of the cleanup
block. -/
def processAudio (api : ℕ → Except String String) (aborted : ℕ → Bool) (total : ℕ)
    (audioFilePath : Option String) (fs : List String) : List StreamWrite × List String :=
  ((dispatchChunks api aborted total).1, cleanup audioFilePath fs)

lemma unlinkCaught_eq_erase (name : String) (fs : List String) :
    unlinkCaught name fs = fs.erase name := by
  by_cases h : name ∈ fs
  · simp [unlinkCaught, unlinkE, h]
  · simp [unlinkCaught, unlinkE, h, List.erase_of_not_mem h]

lemma foldl_erase_cons (p : String → Bool) (a : String) :
    ∀ (iter acc : List String), (∀ n ∈ iter, n ≠ a) →
      iter.foldl (fun acc n => if p n then acc.erase n else acc) (a :: acc)
        = a :: iter.foldl (fun acc n => if p n then acc.erase n else acc) acc := by
  intro iter
  induction iter with
  | nil =>
    intro acc _
    rfl
  | cons n rest ih =>
    intro acc hne
    rw [List.foldl_cons, List.foldl_cons]
    have hna : n ≠ a := hne n (List.mem_cons_self n rest)
    by_cases hp : p n = true
    · rw [if_pos hp, if_pos hp]
      rw [List.erase_cons_tail (by simp [Ne.symm hna])]
      exact ih _ (fun x hx => hne x (List.mem_cons_of_mem n hx))
    · rw [if_neg hp, if_neg hp]
      exact ih _ (fun x hx => hne x (List.mem_cons_of_mem n hx))

lemma foldl_erase_filter (p : String → Bool) :
    ∀ (l : List String), l.Nodup →
      l.foldl (fun acc n => if p n then acc.erase n else acc) l
        = l.filter (fun n => !p n) := by
  intro l
  induction l with
  | nil =>
    intro _
    rfl
  | cons a t ih =>
    intro hnd
    have hnd' : t.Nodup := hnd.of_cons
    have hna : a ∉ t := (List.nodup_cons.mp hnd).1
    rw [List.foldl_cons]
    by_cases hp : p a = true
    · rw [if_pos hp, List.erase_cons_head]
      rw [ih hnd']
      rw [List.filter_cons]
      simp [hp]
    · rw [if_neg hp]
      rw [foldl_erase_cons p a t t (fun n hn => fun hcon => hna (hcon ▸ hn))]
      rw [ih hnd']
      rw [List.filter_cons]
      simp [hp]

lemma cleanup_eq_filter (audioFilePath : Option String) (fs : List String)
    (hnd : fs.Nodup) :
    cleanup audioFilePath fs
      = (match audioFilePath with
          | some p => fs.erase p
          | none => fs).filter (fun n => !strStartsWith "chunk_" n) := by
  unfold cleanup
  cases audioFilePath with
  | none =>
    simp only []
    have hfold := foldl_erase_filter (fun n => strStartsWith "chunk_" n) fs hnd
    have hsame : (fun acc name =>
        if strStartsWith "chunk_" name then unlinkCaught name acc else acc)
        = (fun acc name =>
            if strStartsWith "chunk_" name then acc.erase name else acc) := by
      funext acc name
      rw [unlinkCaught_eq_erase]
    rw [hsame]
    exact hfold
  | some p =>
    simp only []
    rw [unlinkCaught_eq_erase]
    have hnd2 : (fs.erase p).Nodup := hnd.erase p
    have hfold := foldl_erase_filter (fun n => strStartsWith "chunk_" n) (fs.erase p) hnd2
    have hsame : (fun acc name =>
        if strStartsWith "chunk_" name then unlinkCaught name acc else acc)
        = (fun acc name =>
            if strStartsWith "chunk_" name then acc.erase name else acc) := by
      funext acc name
      rw [unlinkCaught_eq_erase]
    rw [hsame]
    exact hfold

lemma strStartsWith_append (p r : String) : strStartsWith p (p ++ r) = true := by
  unfold strStartsWith
  rw [String.data_append, List.take_left]
  simp

/-- C4: the cleanup block removes the saved source temp file and every chunk
file; a deletion of an already-removed file fails inside `unlink` but the
failure is caught, not raised; cleanup is idempotent (re-running it on the
already-cleaned state changes nothing); and the request body applies cleanup
exactly once whatever the dispatch outcome — success, per-chunk failure or
cancellation. -/
theorem cleanup_correct (audioFilePath : Option String) (fs : List String)
    (hnd : fs.Nodup) :
    (∀ p, audioFilePath = some p → p ∉ cleanup audioFilePath fs) ∧
    (∀ n ∈ cleanup audioFilePath fs, strStartsWith "chunk_" n = false) ∧
    cleanup audioFilePath (cleanup audioFilePath fs) = cleanup audioFilePath fs ∧
    (∀ name, name ∉ fs →
        unlinkE name fs = Except.error "ENOENT" ∧ unlinkCaught name fs = fs) ∧
    (∀ api aborted total,
        (processAudio api aborted total audioFilePath fs).2 = cleanup audioFilePath fs) := by
  have hmain := cleanup_eq_filter audioFilePath fs hnd
  refine ⟨?_, ?_, ?_, ?_, fun _ _ _ => rfl⟩
  · intro p hp hmem
    subst hp
    rw [hmain] at hmem
    have h1 := List.mem_filter.mp hmem
    exact ((hnd.mem_erase_iff.mp h1.1).1) rfl
  · intro n hn
    rw [hmain] at hn
    have h1 := (List.mem_filter.mp hn).2
    simpa using h1
  · have hnd1 : (cleanup audioFilePath fs).Nodup := by
      rw [hmain]
      cases audioFilePath with
      | none => exact hnd.filter _
      | some p => exact (hnd.erase p).filter _
    rw [cleanup_eq_filter audioFilePath (cleanup audioFilePath fs) hnd1]
    cases audioFilePath with
    | none =>
      simp only []
      rw [hmain]
      rw [List.filter_filter]
      simp
    | some p =>
      simp only []
      have hpnot : p ∉ cleanup (some p) fs := by
        intro hmem
        rw [hmain] at hmem
        exact ((hnd.mem_erase_iff.mp (List.mem_filter.mp hmem).1).1) rfl
      rw [List.erase_of_not_mem hpnot]
      conv_lhs => rw [hmain]
      rw [List.filter_filter]
      conv_rhs => rw [hmain]
      simp
  · intro name hname
    constructor
    · simp [unlinkE, hname]
    · simp [unlinkCaught, unlinkE, hname]

/-- Witness for C4 on a concrete directory state. -/
theorem cleanup_correct_witness :
    (["input-1.mp3", "chunk_0.mp3", "notes.txt"] : List String).Nodup ∧
    ("input-1.mp3" ∉ cleanup (some "input-1.mp3") ["input-1.mp3", "chunk_0.mp3", "notes.txt"] ∧
      cleanup (some "input-1.mp3")
          (cleanup (some "input-1.mp3") ["input-1.mp3", "chunk_0.mp3", "notes.txt"])
        = cleanup (some "input-1.mp3") ["input-1.mp3", "chunk_0.mp3", "notes.txt"]) := by
  have hnd : (["input-1.mp3", "chunk_0.mp3", "notes.txt"] : List String).Nodup := by decide
  obtain ⟨h1, _, h3, _, _⟩ := cleanup_correct (some "input-1.mp3")
    ["input-1.mp3", "chunk_0.mp3", "notes.txt"] hnd
  exact ⟨hnd, h1 "input-1.mp3" rfl, h3⟩

/-- C9: the cleanup block deletes every file in the shared temp directory
whose name starts with `chunk_` — in particular any chunk file named
`chunk_<index><ext>`, whichever request created it — so under concurrent
requests it removes chunk files belonging to other in-flight requests. -/
theorem cleanup_removes_foreign_chunks (audioFilePath : Option String) (fs : List String)
    (hnd : fs.Nodup) :
    (∀ name, strStartsWith "chunk_" name = true → name ∉ cleanup audioFilePath fs) ∧
    (∀ index ext, chunkFileName index ext ∉ cleanup audioFilePath fs) := by
  have hmain := cleanup_eq_filter audioFilePath fs hnd
  have h1 : ∀ name, strStartsWith "chunk_" name = true → name ∉ cleanup audioFilePath fs := by
    intro name hname hmem
    rw [hmain] at hmem
    have h2 := (List.mem_filter.mp hmem).2
    rw [hname] at h2
    cases h2
  refine ⟨h1, ?_⟩
  intro index ext
  exact h1 _ (strStartsWith_append "chunk_" (toString index ++ ext))

/-- Witness for C9: on a directory holding this request's chunk files and a
foreign request's `chunk_7.wav`, cleanup removes the foreign file too. -/
theorem cleanup_removes_foreign_chunks_witness :
    (["chunk_0.mp3", "chunk_7.wav", "input-5.mp3"] : List String).Nodup ∧
    chunkFileName 7 ".wav"
      ∉ cleanup (some "input-5.mp3") ["chunk_0.mp3", "chunk_7.wav", "input-5.mp3"] := by
  have hnd : (["chunk_0.mp3", "chunk_7.wav", "input-5.mp3"] : List String).Nodup := by decide
  exact ⟨hnd,
    (cleanup_removes_foreign_chunks (some "input-5.mp3")
      ["chunk_0.mp3", "chunk_7.wav", "input-5.mp3"] hnd).2 7 ".wav"⟩

/-! ### Per-request naming (claim C6) -/

/-- C6 counterexample: two distinct concurrent requests (timestamps 1 and 2)
both create the file name `chunk_0.mp3`, so their file-name sets are not
disjoint. -/
theorem chunk_name_collision :
    "chunk_0.mp3" ∈ requestFiles 1 "mp3" 1 ∧
    "chunk_0.mp3" ∈ requestFiles 2 "mp3" 1 ∧
    (1 : ℕ) ≠ 2 := by
  decide

/-- C6 (amended): only the saved input file is named with a request-scoped
timestamp; chunk files are named `chunk_<index><ext>` independently of the
request, so any two requests with at least one planned chunk and the same
extension share a chunk file name. -/
theorem chunk_names_not_request_scoped (ts1 ts2 : ℕ) (ext : String) (n : ℕ)
    (hn : 0 < n) :
    (∀ index, index < n →
        chunkFileName index ("." ++ ext) ∈ requestFiles ts1 ext n ∧
        chunkFileName index ("." ++ ext) ∈ requestFiles ts2 ext n) ∧
    (∃ name, name ∈ requestFiles ts1 ext n ∧ name ∈ requestFiles ts2 ext n ∧
        strStartsWith "chunk_" name = true) := by
  have hmem : ∀ ts index, index < n →
      chunkFileName index ("." ++ ext) ∈ requestFiles ts ext n := by
    intro ts index hidx
    exact List.mem_cons_of_mem _
      (List.mem_map.mpr ⟨index, List.mem_range.mpr hidx, rfl⟩)
  refine ⟨fun index hidx => ⟨hmem ts1 index hidx, hmem ts2 index hidx⟩, ?_⟩
  exact ⟨chunkFileName 0 ("." ++ ext), hmem ts1 0 hn, hmem ts2 0 hn,
    strStartsWith_append "chunk_" (toString 0 ++ ("." ++ ext))⟩

/-- Witness for the amended C6 at two concrete requests. -/
theorem chunk_names_not_request_scoped_witness :
    (0 : ℕ) < 2 ∧
    (chunkFileName 0 ".mp3" ∈ requestFiles 1 "mp3" 2 ∧
      chunkFileName 0 ".mp3" ∈ requestFiles 2 "mp3" 2) := by
  obtain ⟨h1, _⟩ := chunk_names_not_request_scoped 1 2 "mp3" 2 (by decide)
  exact ⟨by decide, h1 0 (by decide)⟩

/-! ### Transcription call configuration (claim C8) -/

/-- The model and language sent with each per-chunk transcription call. -/
structure TranscriptionCallConfig where
  model : String
  language : String
deriving DecidableEq

/-- The configuration the source sends with every call to
`openai.audio.transcriptions.create`: the literals `whisper-1` and `it`,
built without reading anything from the incoming form data. -/
def transcriptionCallConfig (_form : String → Option String) : TranscriptionCallConfig :=
  { model := "whisper-1", language := "it" }

/-- A request form that explicitly carries a language and a model. -/
def demoFormWithLanguage : String → Option String :=
  fun k => if k = "language" then some "en"
    else if k = "model" then some "gpt-4o-transcribe" else none

/-- C8 counterexample: a request whose form data carries language `en` and a
different model still gets the fixed `whisper-1` / `it` configuration, so the
configuration is not carried over from the incoming request. -/
theorem transcription_config_ignores_request :
    transcriptionCallConfig demoFormWithLanguage
        = { model := "whisper-1", language := "it" } ∧
    demoFormWithLanguage "language" = some "en" ∧
    demoFormWithLanguage "model" = some "gpt-4o-transcribe" ∧
    ("en" : String) ≠ "it" ∧
    ("gpt-4o-transcribe" : String) ≠ "whisper-1" := by
  refine ⟨rfl, rfl, rfl, by decide, by decide⟩

/-- C8 (amended): the model is fixed to `whisper-1` and the language to `it`
for every request; the per-chunk call configuration does not depend on the
incoming request at all. -/
theorem transcription_config_fixed :
    (∀ form, transcriptionCallConfig form
        = { model := "whisper-1", language := "it" }) ∧
    (∀ f1 f2, transcriptionCallConfig f1 = transcriptionCallConfig f2) :=
  ⟨fun _ => rfl, fun _ _ => rfl⟩

/-! ### Request validation (claim C10) -/

/-- Which input source the handler selects. -/
inductive InputChoice where
  | fromFile
  | fromUrl
deriving DecidableEq

/-- JS truthiness of an optional string form value: absent and the empty
string are falsy. -/
def jsTruthyStr : Option String → Bool
  | none => false
  | some s => !(s == "")

/-- The validation and input selection of `POST`: throw when
`(!file && !url) || !apiKey`, then use the uploaded file when present, else
the URL (the final `else` throw is unreachable). -/
def validateAndSelect (file url apiKey : Option String) : Except String InputChoice :=
  if ((!file.isSome) && (!jsTruthyStr url)) || (!jsTruthyStr apiKey) then
    .error "File/URL and API key are required"
  else if file.isSome then .ok .fromFile
  else if jsTruthyStr url then .ok .fromUrl
  else .error "No file or URL provided"

/-- C10: a request carrying both a file and a url (with an api key) is not
rejected — the file is used and the url ignored; validation fails exactly
when neither a file nor a truthy url is present, or the api key is missing
or empty. -/
theorem validate_both_present (file url apiKey : Option String) :
    (∀ f, file = some f → jsTruthyStr apiKey = true →
        validateAndSelect file url apiKey = .ok .fromFile) ∧
    ((∃ e, validateAndSelect file url apiKey = .error e) ↔
        ((file = none ∧ jsTruthyStr url = false) ∨ jsTruthyStr apiKey = false)) := by
  constructor
  · intro f hf hkey
    subst hf
    simp [validateAndSelect, hkey]
  · cases file with
    | some f =>
      by_cases hkey : jsTruthyStr apiKey = true
      · simp [validateAndSelect, hkey]
      · have hkey' : jsTruthyStr apiKey = false := by simpa using hkey
        simp [validateAndSelect, hkey']
    | none =>
      by_cases hkey : jsTruthyStr apiKey = true
      · by_cases hurl : jsTruthyStr url = true
        · simp [validateAndSelect, hkey, hurl]
        · have hurl' : jsTruthyStr url = false := by simpa using hurl
          simp [validateAndSelect, hkey, hurl']
      · have hkey' : jsTruthyStr apiKey = false := by simpa using hkey
        simp [validateAndSelect, hkey']

/-- Witness for C10: a request with both a file and a url and a non-empty
api key selects the uploaded file. -/
theorem validate_both_present_witness :
    validateAndSelect (some "talk.mp3") (some "http://example.com/a.mp3") (some "sk-key")
      = .ok .fromFile :=
  (validate_both_present (some "talk.mp3") (some "http://example.com/a.mp3")
    (some "sk-key")).1 "talk.mp3" rfl (by decide)

end Transcriber
